import Mathlib

/-!
Verification of the Beal-conjecture counterexample search engine (`beal.cc`).

The development shallowly embeds the three core components:

* `cz` — a per-modulus residue table: `vals_[c][z] = modpow(c, z, mod)` for
  `c ∈ [1,maxb]`, `z ∈ [3,maxp]`, plus an existence sieve over residue values
  (modelled as the functions `czValsArr` / `czExistsArr`, built by folding the
  same write sequence the constructor's loops perform);
* `axby` — a stateful enumerator of the `(a,x,b,y)` point space for one fixed
  `a` (modelled as the step function `axbyNext` on the cursor state, plus a
  fuelled driver `axbyRun` that collects yielded points until the done signal);
* `work` — the orchestrator whose `do_work` filters the enumeration through
  every residue table (modelled as `doWorkLoop` / `doWork`), and the C-boundary
  call `work_do_work` with its fixed-capacity output buffer.

Machine integers are modelled as `Nat`; the one place 64-bit width matters
(the `uint64_t` sum in `do_work`) carries an explicit `% 2^64`.
-/

/-- Modelled from the spec: `modpow(base, exponent, modulus)` from the external
`math.h` collaborator is not part of the sources; §4.0 specifies it computes
`base ^ exponent mod modulus`, exact for moduli up to `2^32 - 1`, as a pure
total function. -/
def modpow (b e m : Nat) : Nat := b ^ e % m

/-- Modelled from the spec: `gcd(u, v)` from the external `math.h` collaborator
is not part of the sources; §4.0 specifies it computes the greatest common
divisor with `gcd(0, v) = v`, which is exactly `Nat.gcd`. -/
def gcdFn (u v : Nat) : Nat := Nat.gcd u v

/-- A search point `(a, x, b, y)`: candidate bases/exponents for the left side
`a^x + b^y` (struct `axby::point`). -/
structure Pt where
  a : Nat
  x : Nat
  b : Nat
  y : Nat
deriving DecidableEq, Repr

/-! ## The residue table `cz`

The constructor loops `for c in [1, maxb], for z in [3, maxp]` writing
`vals_[c][z] := modpow(c, z, mod)` and `exists_[modpow(c, z, mod)] := true`.
We model the two arrays as functions built by folding those writes, in the
same order, over the list of loop iterations. -/

/-- The `(c, z)` iteration space of the `cz` constructor loops, in loop order:
`c` outer from 1 to `maxb`, `z` inner from 3 to `maxp`. -/
def czPairs (maxb maxp : Nat) : List (Nat × Nat) :=
  (List.range' 1 maxb).flatMap fun c =>
    (List.range' 3 (maxp - 2)).map fun z => (c, z)

/-- The `vals_` array after construction: each loop iteration writes
`modpow c z mod` at index `(c, z)`; untouched slots hold the
value-initialized 0. -/
def czValsArr (maxb maxp m : Nat) : Nat → Nat → Nat :=
  (czPairs maxb maxp).foldl
    (fun V p => fun c z => if c = p.1 ∧ z = p.2 then modpow p.1 p.2 m else V c z)
    (fun _ _ => 0)

/-- The `exists_` sieve after construction: each loop iteration marks the slot
`modpow c z mod`; all slots start false. -/
def czExistsArr (maxb maxp m : Nat) : Nat → Bool :=
  (czPairs maxb maxp).foldl
    (fun E p => fun v => if v = modpow p.1 p.2 m then true else E v)
    (fun _ => false)

/-! ## The enumerator `axby` -/

/-- Structural engine for `findB`: at most `fuel` increments remain before
`b` exceeds `a`. -/
def findBGo (a : Nat) : Nat → Nat → Nat
  | 0, b => b
  | fuel + 1, b =>
    if b > a then b
    else if gcdFn a b > 1 then findBGo a fuel (b + 1)
    else b

/-- The inner `for (;;)` loop of `axby::next` that advances `b` past values
sharing a factor with `a`: starting at `b`, keep incrementing while
`b ≤ a` and `gcd(a, b) > 1`; stops at the first coprime value or at the
first value exceeding `a`. `findB_eq` below is its defining recurrence. -/
def findB (a b : Nat) : Nat := findBGo a (a + 1 - b) b

/-- One call of `axby::next` on cursor state `s`: increments `y`, rolling over
into `x` and then `b` (skipping non-coprime `b` via `findB`); returns the done
flag and the new cursor. On done the code bumps `p_.a` before returning.
`maxb` is stored by the class but unused by `next`. -/
def axbyNext (maxb maxp : Nat) (s : Pt) : Bool × Pt :=
  if s.y + 1 > maxp then
    if s.x + 1 > maxp then
      if findB s.a (s.b + 1) > s.a then (true, ⟨s.a + 1, 3, findB s.a (s.b + 1), 3⟩)
      else (false, ⟨s.a, 3, findB s.a (s.b + 1), 3⟩)
    else (false, ⟨s.a, s.x + 1, s.b, 3⟩)
  else (false, ⟨s.a, s.x, s.b, s.y + 1⟩)

/-- The cursor right after the `axby` constructor: `(a, 3, 1, 3)` with `y`
stepped back once so the first `next` yields the starting point. -/
def axbyInit (a : Nat) : Pt := ⟨a, 3, 1, 2⟩

/-- Driving the enumerator: repeatedly call `next` and collect the yielded
points until the done signal (the done point is discarded, as the caller
must). `fuel` bounds the number of `next` calls; any fuel at least the number
of points plus one yields the complete enumeration. -/
def axbyRun (maxb maxp : Nat) (s : Pt) (fuel : Nat) : List Pt :=
  match fuel with
  | 0 => []
  | Nat.succ fuel =>
    match axbyNext maxb maxp s with
    | (true, _) => []
    | (false, s') => s' :: axbyRun maxb maxp s' fuel

/-! ## Specification-side description of the enumeration -/

/-- The exponent range `[3, maxp]` as a list. -/
def expList (maxp : Nat) : List Nat := List.range' 3 (maxp - 2)

/-- The valid `b` values for slice `a`: `1 ≤ b ≤ a` with `gcd(a, b) = 1`, in
increasing order. -/
def bList (a : Nat) : List Nat :=
  (List.range' 1 a).filter fun b => gcdFn a b == 1

/-- All `(a, x, b, y)` points for one `b`: `x` outer, `y` inner, both over
`[3, maxp]`. -/
def xyBlock (maxp a b : Nat) : List Pt :=
  (expList maxp).flatMap fun x => (expList maxp).map fun y => ⟨a, x, b, y⟩

/-- The complete pruned enumeration for slice `a`, in the order the code
produces it: `b` outermost, then `x`, `y` innermost (fastest). -/
def fullSpec (maxp a : Nat) : List Pt :=
  (bList a).flatMap fun b => xyBlock maxp a b

/-- The points still to be yielded from cursor state `s`: the rest of the
current `y` run, then the remaining `x` rows of the current `b` block, then
the remaining `b` blocks. -/
def remPts (maxp : Nat) (s : Pt) : List Pt :=
  ((List.range' (s.y + 1) (maxp - s.y)).map fun y => ⟨s.a, s.x, s.b, y⟩)
  ++ ((List.range' (s.x + 1) (maxp - s.x)).flatMap fun x =>
        (expList maxp).map fun y => ⟨s.a, x, s.b, y⟩)
  ++ (((List.range' (s.b + 1) (s.a - s.b)).filter fun b => gcdFn s.a b == 1).flatMap
        fun b => xyBlock maxp s.a b)

/-- Cursor states reachable while the enumeration is still running. -/
def WFState (maxp : Nat) (s : Pt) : Prop :=
  1 ≤ s.b ∧ s.b ≤ s.a ∧ gcdFn s.a s.b = 1 ∧
  3 ≤ s.x ∧ s.x ≤ maxp ∧ 2 ≤ s.y ∧ s.y ≤ maxp

theorem findBGo_irrel (a : Nat) : ∀ fuel1 fuel2 b, a + 1 - b ≤ fuel1 → a + 1 - b ≤ fuel2 →
    findBGo a fuel1 b = findBGo a fuel2 b := by
  intro fuel1
  induction fuel1 with
  | zero =>
    intro fuel2 b h1 _
    cases fuel2 with
    | zero => rfl
    | succ fuel2 =>
      rw [findBGo, findBGo, if_pos (by omega)]
  | succ fuel1 ih =>
    intro fuel2 b h1 h2
    cases fuel2 with
    | zero =>
      rw [findBGo, findBGo, if_pos (by omega)]
    | succ fuel2 =>
      rw [findBGo, findBGo]
      by_cases hx : b > a
      · rw [if_pos hx, if_pos hx]
      · rw [if_neg hx, if_neg hx]
        by_cases hg : gcdFn a b > 1
        · rw [if_pos hg, if_pos hg, ih fuel2 (b + 1) (by omega) (by omega)]
        · rw [if_neg hg, if_neg hg]

theorem findB_eq (a b : Nat) :
    findB a b = if b > a then b else if gcdFn a b > 1 then findB a (b + 1) else b := by
  by_cases hx : b > a
  · rw [if_pos hx]
    have h0 : a + 1 - b = 0 := by omega
    rw [findB, h0, findBGo]
  · rw [if_neg hx]
    have h1 : a + 1 - b = (a - b) + 1 := by omega
    by_cases hg : gcdFn a b > 1
    · rw [if_pos hg]
      conv_lhs => rw [findB, h1, findBGo]
      rw [if_neg hx, if_pos hg, findB]
      exact findBGo_irrel a (a - b) (a + 1 - (b + 1)) (b + 1) (by omega) (by omega)
    · rw [if_neg hg]
      conv_lhs => rw [findB, h1, findBGo]
      rw [if_neg hx, if_neg hg]

theorem findB_induct (a : Nat) (motive : Nat → Prop)
    (high : ∀ x, x > a → motive x)
    (skip : ∀ x, ¬ x > a → gcdFn a x > 1 → motive (x + 1) → motive x)
    (stop : ∀ x, ¬ x > a → ¬ gcdFn a x > 1 → motive x) : ∀ b, motive b := by
  have key : ∀ fuel b, a + 1 - b ≤ fuel → motive b := by
    intro fuel
    induction fuel with
    | zero => intro b hb; exact high b (by omega)
    | succ fuel ih =>
      intro b hb
      by_cases hx : b > a
      · exact high b hx
      · by_cases hg : gcdFn a b > 1
        · exact skip b hx hg (ih (b + 1) (by omega))
        · exact stop b hx hg
  exact fun b => key (a + 1) b (by omega)

theorem findB_ge (a : Nat) : ∀ b, b ≤ findB a b := by
  intro b
  induction b using findB_induct a with
  | high x hx => rw [findB_eq, if_pos hx]
  | skip x hx hg ih => rw [findB_eq, if_neg hx, if_pos hg]; omega
  | stop x hx hg => rw [findB_eq, if_neg hx, if_neg hg]

theorem findB_coprime (a : Nat) (ha : 1 ≤ a) :
    ∀ b, findB a b ≤ a → gcdFn a (findB a b) = 1 := by
  intro b
  induction b using findB_induct a with
  | high x hx => rw [findB_eq, if_pos hx]; intro h; exfalso; omega
  | skip x hx hg ih => rw [findB_eq, if_neg hx, if_pos hg]; exact ih
  | stop x hx hg =>
    rw [findB_eq, if_neg hx, if_neg hg]
    intro _
    have h0 : Nat.gcd a x ≠ 0 := by
      intro h
      have := Nat.eq_zero_of_gcd_eq_zero_left h
      omega
    simp only [gcdFn] at hg ⊢
    omega

theorem filter_coprime_eq (a : Nat) (ha : 1 ≤ a) : ∀ c,
    (List.range' c (a + 1 - c)).filter (fun b => gcdFn a b == 1) =
      if findB a c ≤ a then
        findB a c ::
          ((List.range' (findB a c + 1) (a - findB a c)).filter fun b => gcdFn a b == 1)
      else [] := by
  intro c
  induction c using findB_induct a with
  | high x hx =>
    have h0 : a + 1 - x = 0 := by omega
    have hfx : findB a x = x := by rw [findB_eq, if_pos hx]
    rw [h0, hfx, if_neg (by omega)]
    rfl
  | skip x hx hg ih =>
    have hfx : findB a x = findB a (x + 1) := by rw [findB_eq, if_neg hx, if_pos hg]
    have h1 : a + 1 - x = (a + 1 - (x + 1)) + 1 := by omega
    have hgx : ¬ ((fun b => gcdFn a b == 1) x = true) := by
      simp only [beq_iff_eq]
      omega
    rw [h1, List.range'_succ,
      @List.filter_cons_of_neg _ (fun b => gcdFn a b == 1) x _ hgx, hfx]
    exact ih
  | stop x hx hg =>
    have hfx : findB a x = x := by rw [findB_eq, if_neg hx, if_neg hg]
    have h1 : a + 1 - x = (a + 1 - (x + 1)) + 1 := by omega
    have h0 : Nat.gcd a x ≠ 0 := by
      intro h
      have := Nat.eq_zero_of_gcd_eq_zero_left h
      omega
    have hgx : ((fun b => gcdFn a b == 1) x = true) := by
      simp only [beq_iff_eq, gcdFn]
      simp only [gcdFn] at hg
      omega
    have hxa : x ≤ a := by omega
    have h2 : a - x = a + 1 - (x + 1) := by omega
    rw [hfx, h1, List.range'_succ,
      @List.filter_cons_of_pos _ (fun b => gcdFn a b == 1) x _ hgx, if_pos hxa, h2]

theorem expList_cons (maxp : Nat) (h : 3 ≤ maxp) :
    expList maxp = 3 :: List.range' 4 (maxp - 3) := by
  unfold expList
  have h1 : maxp - 2 = (maxp - 3) + 1 := by omega
  rw [h1, List.range'_succ]

theorem axbyStep_true (maxb maxp : Nat) (s t : Pt) (hWF : WFState maxp s)
    (h : axbyNext maxb maxp s = (true, t)) : remPts maxp s = [] := by
  obtain ⟨hb1, hba, hgcd, hx3, hxm, hy2, hym⟩ := hWF
  unfold axbyNext at h
  by_cases hy : s.y + 1 > maxp
  · rw [if_pos hy] at h
    by_cases hx : s.x + 1 > maxp
    · rw [if_pos hx] at h
      by_cases hbx : findB s.a (s.b + 1) > s.a
      · -- the done branch: the b blocks are exhausted
        have hy0 : maxp - s.y = 0 := by omega
        have hx0 : maxp - s.x = 0 := by omega
        have hab : s.a - s.b = s.a + 1 - (s.b + 1) := by omega
        rw [remPts, hy0, hx0, hab,
          filter_coprime_eq s.a (by omega) (s.b + 1), if_neg (by omega)]
        rfl
      · rw [if_neg hbx] at h
        exact absurd h (by simp)
    · rw [if_neg hx] at h
      exact absurd h (by simp)
  · rw [if_neg hy] at h
    exact absurd h (by simp)

theorem axbyStep_false (maxb maxp : Nat) (s s' : Pt) (hWF : WFState maxp s)
    (h : axbyNext maxb maxp s = (false, s')) :
    WFState maxp s' ∧ remPts maxp s = s' :: remPts maxp s' := by
  obtain ⟨hb1, hba, hgcd, hx3, hxm, hy2, hym⟩ := hWF
  unfold axbyNext at h
  by_cases hy : s.y + 1 > maxp
  · rw [if_pos hy] at h
    by_cases hx : s.x + 1 > maxp
    · rw [if_pos hx] at h
      by_cases hbx : findB s.a (s.b + 1) > s.a
      · rw [if_pos hbx] at h
        exact absurd h (by simp)
      · -- advance b to the next coprime value
        rw [if_neg hbx] at h
        simp only [Prod.mk.injEq] at h
        have hs' : s' = ⟨s.a, 3, findB s.a (s.b + 1), 3⟩ := h.2.symm
        have ha1 : 1 ≤ s.a := by omega
        have hbge : s.b + 1 ≤ findB s.a (s.b + 1) := findB_ge s.a (s.b + 1)
        have hbcop : gcdFn s.a (findB s.a (s.b + 1)) = 1 :=
          findB_coprime s.a ha1 (s.b + 1) (by omega)
        constructor
        · rw [hs']
          refine ⟨?_, ?_, ?_, ?_, ?_, ?_, ?_⟩
          · show 1 ≤ findB s.a (s.b + 1)
            omega
          · show findB s.a (s.b + 1) ≤ s.a
            omega
          · exact hbcop
          · exact le_refl 3
          · show 3 ≤ maxp
            omega
          · show 2 ≤ 3
            omega
          · show 3 ≤ maxp
            omega
        · have hy0 : maxp - s.y = 0 := by omega
          have hx0 : maxp - s.x = 0 := by omega
          have hab : s.a - s.b = s.a + 1 - (s.b + 1) := by omega
          rw [hs', remPts, remPts, hy0, hx0, hab,
            filter_coprime_eq s.a ha1 (s.b + 1), if_pos (by omega)]
          simp only [List.range'_zero, List.map_nil, List.nil_append,
            List.flatMap_nil, List.flatMap_cons]
          rw [xyBlock, expList_cons maxp (by omega)]
          simp only [List.flatMap_cons, List.map_cons, List.cons_append,
            List.nil_append, List.append_assoc]
    · -- advance x, reset y
      rw [if_neg hx] at h
      simp only [Prod.mk.injEq] at h
      have hs' : s' = ⟨s.a, s.x + 1, s.b, 3⟩ := h.2.symm
      constructor
      · rw [hs']
        refine ⟨?_, ?_, ?_, ?_, ?_, ?_, ?_⟩
        · show 1 ≤ s.b
          omega
        · show s.b ≤ s.a
          omega
        · exact hgcd
        · show 3 ≤ s.x + 1
          omega
        · show s.x + 1 ≤ maxp
          omega
        · show 2 ≤ 3
          omega
        · show 3 ≤ maxp
          omega
      · have hy0 : maxp - s.y = 0 := by omega
        have hx1 : maxp - s.x = (maxp - (s.x + 1)) + 1 := by omega
        rw [hs', remPts, remPts, hy0, hx1, List.range'_succ]
        simp only [List.range'_zero, List.map_nil, List.nil_append,
          List.flatMap_cons, List.map_cons, List.cons_append, List.append_assoc]
        rw [expList_cons maxp (by omega)]
        simp only [List.map_cons, List.cons_append]
  · -- advance y only
    rw [if_neg hy] at h
    simp only [Prod.mk.injEq] at h
    have hs' : s' = ⟨s.a, s.x, s.b, s.y + 1⟩ := h.2.symm
    constructor
    · rw [hs']
      refine ⟨?_, ?_, ?_, ?_, ?_, ?_, ?_⟩
      · show 1 ≤ s.b
        omega
      · show s.b ≤ s.a
        omega
      · exact hgcd
      · show 3 ≤ s.x
        omega
      · show s.x ≤ maxp
        omega
      · show 2 ≤ s.y + 1
        omega
      · show s.y + 1 ≤ maxp
        omega
    · have hy1 : maxp - s.y = (maxp - (s.y + 1)) + 1 := by omega
      rw [hs', remPts, remPts, hy1, List.range'_succ]
      simp only [List.map_cons, List.cons_append]

theorem axbyRun_succ_true (maxb maxp fuel : Nat) (s t : Pt)
    (h : axbyNext maxb maxp s = (true, t)) :
    axbyRun maxb maxp s (fuel + 1) = [] := by
  rw [axbyRun, h]

theorem axbyRun_succ_false (maxb maxp fuel : Nat) (s s' : Pt)
    (h : axbyNext maxb maxp s = (false, s')) :
    axbyRun maxb maxp s (fuel + 1) = s' :: axbyRun maxb maxp s' fuel := by
  rw [axbyRun, h]

theorem axbyRun_eq_remPts (maxb maxp : Nat) : ∀ fuel s, WFState maxp s →
    (remPts maxp s).length + 1 ≤ fuel →
    axbyRun maxb maxp s fuel = remPts maxp s := by
  intro fuel
  induction fuel with
  | zero => intro s _ hf; exfalso; omega
  | succ fuel ih =>
    intro s hWF hf
    cases hstep : axbyNext maxb maxp s with
    | mk done s' =>
      cases done with
      | true =>
        rw [axbyRun_succ_true maxb maxp fuel s s' hstep,
          axbyStep_true maxb maxp s s' hWF hstep]
      | false =>
        obtain ⟨hWF', hrem⟩ := axbyStep_false maxb maxp s s' hWF hstep
        have hlen : (remPts maxp s').length + 1 ≤ fuel := by
          have := congrArg List.length hrem
          simp only [List.length_cons] at this
          omega
        rw [axbyRun_succ_false maxb maxp fuel s s' hstep, hrem, ih s' hWF' hlen]

theorem xyBlock_decomp (maxp a b : Nat) (hp : 3 ≤ maxp) :
    xyBlock maxp a b = (expList maxp).map (fun y => ⟨a, 3, b, y⟩)
      ++ (List.range' 4 (maxp - 3)).flatMap
          (fun x => (expList maxp).map fun y => ⟨a, x, b, y⟩) := by
  rw [xyBlock, expList_cons maxp hp, List.flatMap_cons]

theorem fullSpec_eq_remPts_init (maxp a : Nat) (hp : 3 ≤ maxp) (ha : 1 ≤ a) :
    fullSpec maxp a = remPts maxp (axbyInit a) := by
  have hf1 : findB a 1 = 1 := by
    have hg : gcdFn a 1 = 1 := by simp [gcdFn]
    rw [findB_eq, hg]
    rw [if_neg (show ¬ 1 > a by omega), if_neg (show ¬ 1 > 1 by omega)]
  have hbl : bList a = 1 :: ((List.range' 2 (a - 1)).filter fun b => gcdFn a b == 1) := by
    rw [bList]
    have h1 : List.range' 1 a = List.range' 1 (a + 1 - 1) := by
      rw [Nat.add_sub_cancel]
    rw [h1, filter_coprime_eq a ha 1, hf1, if_pos ha]
  rw [fullSpec, hbl, List.flatMap_cons, xyBlock_decomp maxp a 1 hp, remPts]
  simp only [axbyInit, expList, List.append_assoc]

theorem mem_fullSpec (maxp a : Nat) (p : Pt) :
    p ∈ fullSpec maxp a ↔
      p.a = a ∧ 1 ≤ p.b ∧ p.b ≤ a ∧ gcdFn a p.b = 1 ∧
      3 ≤ p.x ∧ p.x ≤ maxp ∧ 3 ≤ p.y ∧ p.y ≤ maxp := by
  obtain ⟨pa, px, pb, py⟩ := p
  unfold fullSpec bList xyBlock expList
  simp only [List.mem_flatMap, List.mem_filter, List.mem_map, List.mem_range'_1,
    beq_iff_eq, Pt.mk.injEq]
  constructor
  · rintro ⟨b, ⟨⟨hb1, hb2⟩, hg⟩, x, ⟨hx1, hx2⟩, y, ⟨hy1, hy2⟩, h1, h2, h3, h4⟩
    subst h1
    subst h2
    subst h3
    subst h4
    exact ⟨rfl, hb1, by omega, hg, by omega, by omega, by omega, by omega⟩
  · rintro ⟨h1, hb1, hb2, hg, hx3, hxm, hy3, hym⟩
    subst h1
    exact ⟨pb, ⟨⟨hb1, by omega⟩, hg⟩, px, ⟨hx3, by omega⟩, py, ⟨hy3, by omega⟩,
      rfl, rfl, rfl, rfl⟩

theorem mem_xyBlock_b (maxp a b : Nat) (p : Pt) (h : p ∈ xyBlock maxp a b) :
    p.b = b := by
  unfold xyBlock at h
  simp only [List.mem_flatMap, List.mem_map] at h
  obtain ⟨x, _, y, _, rfl⟩ := h
  rfl

theorem fullSpec_nodup (maxp a : Nat) : (fullSpec maxp a).Nodup := by
  unfold fullSpec
  rw [List.nodup_flatMap]
  constructor
  · intro b _
    unfold xyBlock
    rw [List.nodup_flatMap]
    constructor
    · intro x _
      refine List.Nodup.map ?_ (List.nodup_range' 3 (maxp - 2))
      intro y1 y2 h
      simpa using congrArg Pt.y h
    · refine List.Pairwise.imp ?_ (List.nodup_range' 3 (maxp - 2))
      intro x1 x2 hne p hp1 hp2
      simp only [List.mem_map] at hp1 hp2
      obtain ⟨y1, _, rfl⟩ := hp1
      obtain ⟨y2, _, h2⟩ := hp2
      exact hne (by simpa using congrArg Pt.x h2.symm)
  · refine List.Pairwise.imp ?_ ((List.nodup_range' 1 a).filter _)
    intro b1 b2 hne p hp1 hp2
    have e1 := mem_xyBlock_b maxp a b1 p hp1
    have e2 := mem_xyBlock_b maxp a b2 p hp2
    exact hne (by omega)

theorem fullSpec_head (maxp a : Nat) (hp : 3 ≤ maxp) (ha : 1 ≤ a) :
    (fullSpec maxp a).head? = some ⟨a, 3, 1, 3⟩ := by
  rw [fullSpec_eq_remPts_init maxp a hp ha, remPts]
  simp only [axbyInit]
  have h2 : maxp - 2 = (maxp - 3) + 1 := by omega
  rw [h2, List.range'_succ]
  simp

/-- C2: for an enumerator with `maxExp > 2` and `a ≥ 1`, the complete yielded
sequence is exactly the quadruples `(a,x,b,y)` with `3 ≤ x,y ≤ maxExp`,
`1 ≤ b ≤ a`, `gcd(a,b) = 1`, each exactly once, ordered `y` fastest, then `x`,
then `b`, starting at `(a,3,1,3)`. -/
theorem C2_enumeration (maxb maxp a fuel : Nat) (hp : 2 < maxp) (ha : 1 ≤ a)
    (hf : (fullSpec maxp a).length + 1 ≤ fuel) :
    axbyRun maxb maxp (axbyInit a) fuel = fullSpec maxp a
    ∧ (∀ p, p ∈ fullSpec maxp a ↔
        p.a = a ∧ 1 ≤ p.b ∧ p.b ≤ a ∧ gcdFn a p.b = 1 ∧
        3 ≤ p.x ∧ p.x ≤ maxp ∧ 3 ≤ p.y ∧ p.y ≤ maxp)
    ∧ (fullSpec maxp a).Nodup
    ∧ (axbyRun maxb maxp (axbyInit a) fuel).head? = some ⟨a, 3, 1, 3⟩ := by
  have hWF : WFState maxp (axbyInit a) := by
    refine ⟨?_, ?_, ?_, ?_, ?_, ?_, ?_⟩
    · exact le_refl 1
    · exact ha
    · show gcdFn a 1 = 1
      simp [gcdFn]
    · exact le_refl 3
    · show 3 ≤ maxp
      omega
    · exact le_refl 2
    · show 2 ≤ maxp
      omega
  have heq : fullSpec maxp a = remPts maxp (axbyInit a) :=
    fullSpec_eq_remPts_init maxp a (by omega) ha
  have hrun : axbyRun maxb maxp (axbyInit a) fuel = remPts maxp (axbyInit a) :=
    axbyRun_eq_remPts maxb maxp fuel (axbyInit a) hWF (by rw [← heq]; exact hf)
  refine ⟨by rw [hrun, heq], fun p => mem_fullSpec maxp a p, fullSpec_nodup maxp a, ?_⟩
  rw [hrun, ← heq]
  exact fullSpec_head maxp a (by omega) ha

theorem C2_enumeration_witness :
    axbyRun 5 3 (axbyInit 1) 2 = fullSpec 3 1 :=
  (C2_enumeration 5 3 1 2 (by decide) (by decide) (by decide)).1

theorem foldl_write_lookup (m : Nat) (l : List (Nat × Nat)) :
    ∀ (V : Nat → Nat → Nat) (c z : Nat),
    (l.foldl (fun V p => fun c z => if c = p.1 ∧ z = p.2 then modpow p.1 p.2 m else V c z) V) c z
      = if (c, z) ∈ l then modpow c z m else V c z := by
  induction l with
  | nil => intro V c z; simp
  | cons p t ih =>
    intro V c z
    obtain ⟨p1, p2⟩ := p
    rw [List.foldl_cons, ih]
    by_cases ht : (c, z) ∈ t
    · rw [if_pos ht, if_pos (List.mem_cons_of_mem _ ht)]
    · rw [if_neg ht]
      by_cases hp : c = p1 ∧ z = p2
      · obtain ⟨h1, h2⟩ := hp
        subst h1
        subst h2
        rw [if_pos ⟨rfl, rfl⟩, if_pos (List.mem_cons_self _ _)]
      · rw [if_neg hp, if_neg]
        intro hmem
        rcases List.mem_cons.mp hmem with h | h
        · exact hp ⟨congrArg Prod.fst h, congrArg Prod.snd h⟩
        · exact ht h

theorem foldl_mark_lookup (m : Nat) (l : List (Nat × Nat)) :
    ∀ (E : Nat → Bool) (v : Nat),
    (l.foldl (fun E p => fun w => if w = modpow p.1 p.2 m then true else E w) E) v
      = (E v || l.any fun p => v == modpow p.1 p.2 m) := by
  induction l with
  | nil => intro E v; simp
  | cons p t ih =>
    intro E v
    rw [List.foldl_cons, ih, List.any_cons]
    by_cases hv : v = modpow p.1 p.2 m
    · simp [hv]
    · simp only [if_neg hv]
      have hb : (v == modpow p.1 p.2 m) = false := beq_eq_false_iff_ne.mpr hv
      rw [hb]
      simp

theorem mem_czPairs (maxb maxp c z : Nat) :
    (c, z) ∈ czPairs maxb maxp ↔ 1 ≤ c ∧ c ≤ maxb ∧ 3 ≤ z ∧ z ≤ maxp := by
  unfold czPairs
  simp only [List.mem_flatMap, List.mem_map, List.mem_range'_1, Prod.mk.injEq]
  constructor
  · rintro ⟨c', ⟨hc1, hc2⟩, z', ⟨hz1, hz2⟩, h1, h2⟩
    subst h1
    subst h2
    exact ⟨by omega, by omega, by omega, by omega⟩
  · rintro ⟨hc1, hc2, hz1, hz2⟩
    exact ⟨c, ⟨by omega, by omega⟩, z, ⟨by omega, by omega⟩, rfl, rfl⟩

theorem czValsArr_eq (maxb maxp m c z : Nat) (hc : 1 ≤ c) (hc2 : c ≤ maxb)
    (hz : 3 ≤ z) (hz2 : z ≤ maxp) :
    czValsArr maxb maxp m c z = modpow c z m := by
  rw [czValsArr, foldl_write_lookup, if_pos]
  exact (mem_czPairs maxb maxp c z).mpr ⟨hc, hc2, hz, hz2⟩

theorem czExistsArr_iff (maxb maxp m v : Nat) :
    czExistsArr maxb maxp m v = true ↔
      ∃ c z, 1 ≤ c ∧ c ≤ maxb ∧ 3 ≤ z ∧ z ≤ maxp ∧ modpow c z m = v := by
  rw [czExistsArr, foldl_mark_lookup]
  simp only [Bool.false_or, List.any_eq_true, beq_iff_eq]
  constructor
  · rintro ⟨⟨c, z⟩, hmem, hv⟩
    obtain ⟨h1, h2, h3, h4⟩ := (mem_czPairs maxb maxp c z).mp hmem
    exact ⟨c, z, h1, h2, h3, h4, hv.symm⟩
  · rintro ⟨c, z, h1, h2, h3, h4, hv⟩
    exact ⟨(c, z), (mem_czPairs maxb maxp c z).mpr ⟨h1, h2, h3, h4⟩, hv.symm⟩

/-- C3: for a table built with `maxBase ≥ 1`, `maxExp > 2`, `modulus > 0`, and
any in-range `(c, z)`, `get(c,z)` equals `modpow(c,z,modulus)` and
`exists(get(c,z))` is true. -/
theorem C3_table (maxb maxp m c z : Nat) (hb : 1 ≤ maxb) (hp : 2 < maxp) (hm : 0 < m)
    (hc : 1 ≤ c) (hc2 : c ≤ maxb) (hz : 3 ≤ z) (hz2 : z ≤ maxp) :
    czValsArr maxb maxp m c z = modpow c z m
    ∧ czExistsArr maxb maxp m (czValsArr maxb maxp m c z) = true := by
  have h1 := czValsArr_eq maxb maxp m c z hc hc2 hz hz2
  refine ⟨h1, ?_⟩
  rw [h1, czExistsArr_iff]
  exact ⟨c, z, hc, hc2, hz, hz2, rfl⟩

theorem C3_table_witness : czExistsArr 2 3 7 (czValsArr 2 3 7 2 3) = true :=
  (C3_table 2 3 7 2 3 (by decide) (by decide) (by decide) (by decide) (by decide)
    (by decide) (by decide)).2

/-- C4 counterexample: with maxBase=2, maxExp=3, modulus=7 the value v=8 lies in
`[0, 2^32)` and satisfies `2^3 ≡ 8 (mod 7)` with `(c,z) = (2,3)` in range, yet
`exists(8)` is false — the sieve marks only the mod-reduced residue 1, so the
claimed equivalence with `c^z ≡ v (mod m)` fails for `v ≥ modulus`. -/
theorem C4_counterexample :
    ¬ (czExistsArr 2 3 7 8 = true ↔
        ∃ c z, 1 ≤ c ∧ c ≤ 2 ∧ 3 ≤ z ∧ z ≤ 3 ∧ c ^ z % 7 = 8 % 7) := by
  intro h
  have h8 : czExistsArr 2 3 7 8 = true :=
    h.mpr ⟨2, 3, by decide, by decide, by decide, by decide, by decide⟩
  exact absurd h8 (by decide)

/-- C4 (amended): after construction, `exists(v)` is true iff some in-range
`(c, z)` has `c^z mod m = v`; for `v < m` this coincides with the congruence
`c^z ≡ v (mod m)`. The table is a pure value in this model, so no operation
mutates it. -/
theorem C4_amended (maxb maxp m : Nat) (hb : 1 ≤ maxb) (hp : 2 < maxp) (hm : 0 < m)
    (v : Nat) (hv : v < 2 ^ 32) :
    (czExistsArr maxb maxp m v = true ↔
      ∃ c z, 1 ≤ c ∧ c ≤ maxb ∧ 3 ≤ z ∧ z ≤ maxp ∧ c ^ z % m = v)
    ∧ (v < m →
        (czExistsArr maxb maxp m v = true ↔
          ∃ c z, 1 ≤ c ∧ c ≤ maxb ∧ 3 ≤ z ∧ z ≤ maxp ∧ Nat.ModEq m (c ^ z) v)) := by
  have hmain : czExistsArr maxb maxp m v = true ↔
      ∃ c z, 1 ≤ c ∧ c ≤ maxb ∧ 3 ≤ z ∧ z ≤ maxp ∧ c ^ z % m = v := by
    rw [czExistsArr_iff]
    simp only [modpow]
  refine ⟨hmain, fun hvm => hmain.trans ?_⟩
  have hv' : v % m = v := Nat.mod_eq_of_lt hvm
  unfold Nat.ModEq
  rw [hv']

theorem C4_amended_witness : czExistsArr 2 3 7 1 = true :=
  ((C4_amended 2 3 7 (by decide) (by decide) (by decide) 1 (by decide)).1).mpr
    ⟨2, 3, by decide, by decide, by decide, by decide, by decide⟩

/-! ## The orchestrator `work` -/

/-- The `uint64_t` sum in `do_work`: `val = (ax + by) % mod`, where `ax`, `by`
are the two table lookups widened to 64 bits; 64-bit addition wraps at
`2^64`. -/
def sumVal (maxb maxp m : Nat) (p : Pt) : Nat :=
  (czValsArr maxb maxp m p.a p.x + czValsArr maxb maxp m p.b p.y) % 2 ^ 64 % m

/-- The conjunctive filter of `do_work`: every owned table must report
`exists(val)` for its own modulus (`found` stays true). -/
def checkPt (maxb maxp : Nat) (mods : List Nat) (p : Pt) : Bool :=
  mods.all fun m => czExistsArr maxb maxp m (sumVal maxb maxp m p)

/-- The `do_work` loop: step the enumerator, test each yielded point against
every table, collect the survivors, stop at done. -/
def doWorkLoop (maxb maxp : Nat) (mods : List Nat) (s : Pt) (fuel : Nat) : List Pt :=
  match fuel with
  | 0 => []
  | Nat.succ fuel =>
    match axbyNext maxb maxp s with
    | (true, _) => []
    | (false, s') =>
      if checkPt maxb maxp mods s' then s' :: doWorkLoop maxb maxp mods s' fuel
      else doWorkLoop maxb maxp mods s' fuel

/-- `work::do_work(a)`: run the filtered enumeration for slice `a` from the
freshly constructed enumerator. The orchestrator's tables are represented by
their moduli (a table is determined by `maxb`, `maxp` and its modulus). -/
def doWork (maxb maxp : Nat) (mods : List Nat) (a fuel : Nat) : List Pt :=
  doWorkLoop maxb maxp mods (axbyInit a) fuel

/-- The orchestrator: bounds plus the moduli of its owned tables
(class `work`). -/
structure Work where
  maxb : Nat
  maxp : Nat
  mods : List Nat

/-- `do_work` as a method on the orchestrator state: the state is threaded
through and returned so that any mutation of the owned tables would be
visible; the method only reads them. -/
def doWorkSt (w : Work) (a fuel : Nat) : List Pt × Work :=
  (doWork w.maxb w.maxp w.mods a fuel, w)

/-- `work_do_work` at the C boundary: run the search, then copy the results
into the caller's buffer only if they fit; always return the true count.
The buffer is a list of length `len`; a write fills a prefix and leaves the
tail slots untouched. -/
def work_do_work (maxb maxp : Nat) (mods : List Nat) (a fuel : Nat)
    (buf : List Pt) : Nat × List Pt :=
  if (doWork maxb maxp mods a fuel).length ≤ buf.length then
    ((doWork maxb maxp mods a fuel).length,
      doWork maxb maxp mods a fuel ++ buf.drop (doWork maxb maxp mods a fuel).length)
  else
    ((doWork maxb maxp mods a fuel).length, buf)

theorem doWorkLoop_eq_filter (maxb maxp : Nat) (mods : List Nat) : ∀ fuel s,
    doWorkLoop maxb maxp mods s fuel
      = (axbyRun maxb maxp s fuel).filter (checkPt maxb maxp mods) := by
  intro fuel
  induction fuel with
  | zero => intro s; rfl
  | succ fuel ih =>
    intro s
    rw [doWorkLoop, axbyRun]
    cases hstep : axbyNext maxb maxp s with
    | mk done s' =>
      cases done with
      | true => rfl
      | false =>
        simp only [List.filter_cons]
        by_cases hc : checkPt maxb maxp mods s'
        · rw [if_pos hc, if_pos hc, ih s']
        · rw [if_neg hc, if_neg hc, ih s']

theorem WFState_init (maxp a : Nat) (hp : 2 < maxp) (ha : 1 ≤ a) :
    WFState maxp (axbyInit a) := by
  refine ⟨?_, ?_, ?_, ?_, ?_, ?_, ?_⟩
  · exact le_refl 1
  · exact ha
  · show gcdFn a 1 = 1
    simp [gcdFn]
  · exact le_refl 3
  · show 3 ≤ maxp
    omega
  · exact le_refl 2
  · show 2 ≤ maxp
    omega

theorem axbyRun_init_eq_fullSpec (maxb maxp a fuel : Nat) (hp : 2 < maxp) (ha : 1 ≤ a)
    (hf : (fullSpec maxp a).length + 1 ≤ fuel) :
    axbyRun maxb maxp (axbyInit a) fuel = fullSpec maxp a := by
  have heq : fullSpec maxp a = remPts maxp (axbyInit a) :=
    fullSpec_eq_remPts_init maxp a (by omega) ha
  rw [axbyRun_eq_remPts maxb maxp fuel (axbyInit a) (WFState_init maxp a hp ha)
    (by rw [← heq]; exact hf), ← heq]

/-- C1: `search(a)` returns exactly the enumerated points passing every owned
table's check `exists((get(a,x) + get(b,y)) mod modulus)`; a point failing any
single table is excluded; survivors keep enumeration order. -/
theorem C1_search (maxb maxp : Nat) (mods : List Nat) (a fuel : Nat)
    (ha : 1 ≤ a) (hab : a ≤ maxb) (hp : 2 < maxp) (hm : ∀ m ∈ mods, 0 < m)
    (hf : (fullSpec maxp a).length + 1 ≤ fuel) :
    doWork maxb maxp mods a fuel = (fullSpec maxp a).filter (checkPt maxb maxp mods)
    ∧ (∀ p, p ∈ doWork maxb maxp mods a fuel ↔
        p ∈ fullSpec maxp a ∧ checkPt maxb maxp mods p = true)
    ∧ (∀ p ∈ fullSpec maxp a,
        (∃ m ∈ mods, czExistsArr maxb maxp m (sumVal maxb maxp m p) = false) →
          p ∉ doWork maxb maxp mods a fuel) := by
  have hrun := axbyRun_init_eq_fullSpec maxb maxp a fuel hp ha hf
  have h1 : doWork maxb maxp mods a fuel
      = (fullSpec maxp a).filter (checkPt maxb maxp mods) := by
    rw [doWork, doWorkLoop_eq_filter, hrun]
  refine ⟨h1, ?_, ?_⟩
  · intro p
    rw [h1, List.mem_filter]
  · rintro p hpmem ⟨m, hmmem, hfalse⟩ hcontra
    rw [h1, List.mem_filter] at hcontra
    have hall := hcontra.2
    rw [checkPt, List.all_eq_true] at hall
    have := hall m hmmem
    rw [hfalse] at this
    exact absurd this (by decide)

theorem C1_search_witness :
    doWork 2 3 [7] 2 4 = (fullSpec 3 2).filter (checkPt 2 3 [7]) :=
  (C1_search 2 3 [7] 2 4 (by decide) (by decide) (by decide) (by decide) (by decide)).1

/-- C10: with an empty modulus list, the conjunctive filter passes vacuously
and `search(a)` returns the full pruned enumeration for `a`. -/
theorem C10_empty_mods (maxb maxp a fuel : Nat) (hp : 2 < maxp) (ha : 1 ≤ a)
    (hf : (fullSpec maxp a).length + 1 ≤ fuel) :
    doWork maxb maxp [] a fuel = axbyRun maxb maxp (axbyInit a) fuel
    ∧ doWork maxb maxp [] a fuel = fullSpec maxp a := by
  have hrun := axbyRun_init_eq_fullSpec maxb maxp a fuel hp ha hf
  have h1 : doWork maxb maxp [] a fuel
      = (axbyRun maxb maxp (axbyInit a) fuel).filter (checkPt maxb maxp []) :=
    doWorkLoop_eq_filter maxb maxp [] fuel (axbyInit a)
  have h2 : (axbyRun maxb maxp (axbyInit a) fuel).filter (checkPt maxb maxp [])
      = axbyRun maxb maxp (axbyInit a) fuel :=
    List.filter_eq_self.mpr fun p _ => by simp [checkPt]
  exact ⟨h1.trans h2, (h1.trans h2).trans hrun⟩

theorem C10_empty_mods_witness : doWork 5 3 [] 1 2 = fullSpec 3 1 :=
  (C10_empty_mods 5 3 1 2 (by decide) (by decide) (by decide)).2

/-- C5: at the boundary, if the true result count exceeds the buffer capacity
no element is written; the returned value always equals the true count; a
retry with a large-enough buffer returns the same count with all results
written at the front. -/
theorem C5_boundary (maxb maxp : Nat) (mods : List Nat) (a fuel : Nat)
    (buf buf2 : List Pt)
    (h2 : (doWork maxb maxp mods a fuel).length ≤ buf2.length) :
    (work_do_work maxb maxp mods a fuel buf).1 = (doWork maxb maxp mods a fuel).length
    ∧ (buf.length < (doWork maxb maxp mods a fuel).length →
        (work_do_work maxb maxp mods a fuel buf).2 = buf)
    ∧ (work_do_work maxb maxp mods a fuel buf2).1
        = (work_do_work maxb maxp mods a fuel buf).1
    ∧ (work_do_work maxb maxp mods a fuel buf2).2.take
        (doWork maxb maxp mods a fuel).length = doWork maxb maxp mods a fuel := by
  have htake : (doWork maxb maxp mods a fuel
        ++ buf2.drop (doWork maxb maxp mods a fuel).length).take
          (doWork maxb maxp mods a fuel).length = doWork maxb maxp mods a fuel := by
    rw [List.take_left]
  by_cases hfit : (doWork maxb maxp mods a fuel).length ≤ buf.length
  · rw [work_do_work, work_do_work, if_pos hfit, if_pos h2]
    exact ⟨rfl, fun hlt => absurd hfit (by omega), rfl, htake⟩
  · rw [work_do_work, work_do_work, if_neg hfit, if_pos h2]
    exact ⟨rfl, fun _ => rfl, rfl, htake⟩

theorem C5_boundary_witness :
    (work_do_work 1 3 [] 1 2 []).1 = (doWork 1 3 [] 1 2).length :=
  (C5_boundary 1 3 [] 1 2 [] [⟨0, 0, 0, 0⟩] (by decide)).1

/-- C6: the sum in the filter is computed in 64 bits; for any modulus up to
`2^32 - 1` the two residues are `< m`, the sum never wraps, and the value
passed to `exists` is exactly `(a^x + b^y) mod m`. -/
theorem C6_width (maxb maxp m : Nat) (p : Pt) (hm : 0 < m) (hm32 : m ≤ 2 ^ 32 - 1)
    (hpa : 1 ≤ p.a) (hpa2 : p.a ≤ maxb) (hx : 3 ≤ p.x) (hx2 : p.x ≤ maxp)
    (hpb : 1 ≤ p.b) (hpb2 : p.b ≤ maxb) (hy : 3 ≤ p.y) (hy2 : p.y ≤ maxp) :
    czValsArr maxb maxp m p.a p.x + czValsArr maxb maxp m p.b p.y < 2 ^ 64
    ∧ sumVal maxb maxp m p = (p.a ^ p.x + p.b ^ p.y) % m := by
  have e1 := czValsArr_eq maxb maxp m p.a p.x hpa hpa2 hx hx2
  have e2 := czValsArr_eq maxb maxp m p.b p.y hpb hpb2 hy hy2
  have l1 : czValsArr maxb maxp m p.a p.x < m := by
    rw [e1]
    exact Nat.mod_lt _ hm
  have l2 : czValsArr maxb maxp m p.b p.y < m := by
    rw [e2]
    exact Nat.mod_lt _ hm
  have h32 : (2 : Nat) ^ 32 - 1 = 4294967295 := by norm_num
  have h64 : (2 : Nat) ^ 64 = 18446744073709551616 := by norm_num
  have hlt : czValsArr maxb maxp m p.a p.x + czValsArr maxb maxp m p.b p.y < 2 ^ 64 := by
    rw [h64]
    rw [h32] at hm32
    omega
  refine ⟨hlt, ?_⟩
  rw [sumVal, Nat.mod_eq_of_lt hlt, e1, e2]
  simp only [modpow]
  conv_rhs => rw [Nat.add_mod]

theorem C6_width_witness : sumVal 2 3 7 ⟨2, 3, 1, 3⟩ = (2 ^ 3 + 1 ^ 3) % 7 :=
  (C6_width 2 3 7 ⟨2, 3, 1, 3⟩ (by decide) (by norm_num) (by decide) (by decide)
    (by decide) (by decide) (by decide) (by decide) (by decide) (by decide)).2

/-- C8: two successive `search(a)` calls on the same orchestrator return
identical lists; the call leaves the orchestrator (its owned tables included)
unchanged. -/
theorem C8_idempotent (w : Work) (a fuel : Nat) :
    (doWorkSt w a fuel).2 = w
    ∧ (doWorkSt w a fuel).1 = (doWorkSt (doWorkSt w a fuel).2 a fuel).1 :=
  ⟨rfl, rfl⟩

/-- C7: an unordered coprime pair `{u, v}` with `u < v` appears only in the
slice of the larger value: slice `v` yields a point with `b = u`, and slice
`u` never yields a point with `b = v`. -/
theorem C7_one_slice (maxb maxp u v fuel1 fuel2 : Nat) (hp : 2 < maxp)
    (hu : 1 ≤ u) (huv : u < v) (hg : gcdFn v u = 1)
    (hf1 : (fullSpec maxp v).length + 1 ≤ fuel1)
    (hf2 : (fullSpec maxp u).length + 1 ≤ fuel2) :
    (∃ p ∈ axbyRun maxb maxp (axbyInit v) fuel1, p.b = u)
    ∧ (∀ p ∈ axbyRun maxb maxp (axbyInit u) fuel2, p.b ≠ v) := by
  have hrun1 := axbyRun_init_eq_fullSpec maxb maxp v fuel1 hp (by omega) hf1
  have hrun2 := axbyRun_init_eq_fullSpec maxb maxp u fuel2 hp hu hf2
  constructor
  · rw [hrun1]
    refine ⟨⟨v, 3, u, 3⟩, ?_, rfl⟩
    rw [mem_fullSpec]
    exact ⟨rfl, hu, show u ≤ v by omega, hg, le_refl 3, show 3 ≤ maxp by omega,
      le_refl 3, show 3 ≤ maxp by omega⟩
  · intro p hpmem
    rw [hrun2, mem_fullSpec] at hpmem
    have hble : p.b ≤ u := hpmem.2.2.1
    intro heq
    omega

theorem C7_one_slice_witness : ∃ p ∈ axbyRun 5 3 (axbyInit 2) 2, p.b = 1 :=
  (C7_one_slice 5 3 1 2 2 2 (by decide) (by decide) (by decide) (by decide)
    (by decide) (by decide)).1

/-- C9: the enumerator's output never depends on `maxBase`: runs with equal
`maxExp`, state and fuel but different `maxBase` coincide, and for
`a > maxBase` every coprime `b ≤ a` — including `b > maxBase` — is still
yielded. -/
theorem C9_maxb_independence (maxb1 maxb2 maxp a fuel : Nat) (hp : 2 < maxp)
    (ha : 1 ≤ a) (hf : (fullSpec maxp a).length + 1 ≤ fuel) :
    (∀ s f, axbyRun maxb1 maxp s f = axbyRun maxb2 maxp s f)
    ∧ (∀ b, maxb1 < b → b ≤ a → gcdFn a b = 1 →
        ∃ p ∈ axbyRun maxb1 maxp (axbyInit a) fuel, p.b = b) := by
  constructor
  · intro s f
    induction f generalizing s with
    | zero => rfl
    | succ f ih =>
      cases hstep : axbyNext maxb1 maxp s with
      | mk done s' =>
        have hstep2 : axbyNext maxb2 maxp s = (done, s') :=
          (show axbyNext maxb2 maxp s = axbyNext maxb1 maxp s from rfl).trans hstep
        cases done with
        | true =>
          rw [axbyRun_succ_true maxb1 maxp f s s' hstep,
            axbyRun_succ_true maxb2 maxp f s s' hstep2]
        | false =>
          rw [axbyRun_succ_false maxb1 maxp f s s' hstep,
            axbyRun_succ_false maxb2 maxp f s s' hstep2, ih s']
  · intro b hb1 hb2 hb3
    rw [axbyRun_init_eq_fullSpec maxb1 maxp a fuel hp ha hf]
    refine ⟨⟨a, 3, b, 3⟩, ?_, rfl⟩
    rw [mem_fullSpec]
    exact ⟨rfl, show 1 ≤ b by omega, hb2, hb3, le_refl 3, show 3 ≤ maxp by omega,
      le_refl 3, show 3 ≤ maxp by omega⟩

theorem C9_maxb_independence_witness : ∃ p ∈ axbyRun 1 3 (axbyInit 3) 3, p.b = 2 :=
  (C9_maxb_independence 1 5 3 3 3 (by decide) (by decide) (by decide)).2 2
    (by decide) (by decide) (by decide)
